import Mathlib

/-!
Verification of the linksniff task orchestration core (app.py).

The embedding translates the orchestration engine into Lean:
the task table is a list of rows, timestamps are natural numbers,
the periodic dispatcher (process_queue), the worker (run_task), the
retrying query wrapper (execute_db_query) and the boundary operations
(requeue, set_concurrency) become pure functions, with fallible store
writes modelled by explicit success flags.
-/

namespace Linksniff

/-- Task status values stored in the tasks table. -/
inductive Status
  | pending
  | active
  | completed
  | failed
  deriving DecidableEq

/-- Row of the tasks table (schema in app.py lines 68-79).
Timestamps are modelled as natural numbers. -/
structure Task where
  id : Nat
  script : String
  url : String
  status : Status
  added_time : Nat
  start_time : Option Nat
  end_time : Option Nat
  log : Option String
  deriving DecidableEq

/-- Test for status active. -/
def isActive (t : Task) : Bool := t.status == Status.active

/-- Test for status pending. -/
def isPending (t : Task) : Bool := t.status == Status.pending

/-- Result of SELECT DISTINCT script FROM tasks WHERE status=active
(app.py lines 136-140). -/
def distinctActiveScripts (db : List Task) : List String :=
  ((db.filter isActive).map Task.script).dedup

/-- Comparison used by ORDER BY added_time ASC. -/
def addedLe (a b : Task) : Prop := a.added_time ≤ b.added_time

instance : DecidableRel addedLe :=
  fun a b => inferInstanceAs (Decidable (a.added_time ≤ b.added_time))

instance : IsTotal Task addedLe :=
  ⟨fun a b => Nat.le_total a.added_time b.added_time⟩

instance : IsTrans Task addedLe :=
  ⟨fun _ _ _ h h' => Nat.le_trans h h'⟩

/-- Result of SELECT id, script, url FROM tasks WHERE status=pending
ORDER BY added_time ASC (app.py lines 148-153). -/
def pendingTriples (db : List Task) : List (Nat × String × String) :=
  (List.insertionSort addedLe (db.filter isPending)).map fun t => (t.id, t.script, t.url)

/-- Dispatch loop of process_queue (app.py lines 155-167): a started counter,
break when started has reached slots, skip a task whose script is already
active or was claimed earlier in the same tick, otherwise launch it. -/
def dispatchLoop (slots : Int) (active : List String) (started : Nat) :
    List (Nat × String × String) → List (Nat × String × String)
  | [] => []
  | e :: rest =>
    if slots ≤ (started : Int) then []
    else if e.2.1 ∈ active then dispatchLoop slots active started rest
    else e :: dispatchLoop slots (e.2.1 :: active) (started + 1) rest

/-- Per-tick dispatch decision (process_queue, app.py lines 130-170): the
(id, script, url) triples for which a Worker thread is started this tick. -/
def process_queue (concurrency : Int) (db : List Task) : List (Nat × String × String) :=
  let activeScripts := distinctActiveScripts db
  let slots : Int := concurrency - activeScripts.length
  if slots ≤ 0 then []
  else dispatchLoop slots activeScripts 0 (pendingTriples db)

/-- Modelled from the words of the spec, section 4.2 step 4: iterate the
ordered list, skip a task whose script is in the active set, otherwise launch
it, add its script to the active set and decrement slots, stopping when slots
reaches 0 or the list is exhausted. Used only to compare with process_queue. -/
def specLoop (slots : Int) (active : List String) :
    List (Nat × String × String) → List (Nat × String × String)
  | [] => []
  | e :: rest =>
    if slots ≤ 0 then []
    else if e.2.1 ∈ active then specLoop slots active rest
    else e :: specLoop (slots - 1) (e.2.1 :: active) rest

/-- Modelled from the words of the spec, section 4.2 steps 1-4: compute
slots as C minus the number of distinct active scripts, launch nothing when
slots is not positive, else run the traversal. Used only to compare with
process_queue. -/
def dispatchSpec (concurrency : Int) (db : List Task) : List (Nat × String × String) :=
  let activeScripts := distinctActiveScripts db
  let slots : Int := concurrency - activeScripts.length
  if slots ≤ 0 then []
  else specLoop slots activeScripts (pendingTriples db)

theorem dispatchLoop_eq_specLoop (l : List (Nat × String × String)) :
    ∀ (slots : Int) (active : List String) (started : Nat),
    dispatchLoop slots active started l = specLoop (slots - started) active l := by
  induction l with
  | nil => intro slots active started; rfl
  | cons e rest ih =>
    intro slots active started
    by_cases hb : slots ≤ (started : Int)
    · have hb2 : slots - started ≤ 0 := by omega
      simp [dispatchLoop, specLoop, hb, hb2]
    · have hb2 : ¬ slots - started ≤ 0 := by omega
      by_cases hm : e.2.1 ∈ active
      · simp [dispatchLoop, specLoop, hb, hb2, hm, ih]
      · have harith : slots - started - 1 = slots - (started + 1 : Nat) := by push_cast; ring
        simp [dispatchLoop, specLoop, hb, hb2, hm, ih, harith]

theorem dispatchLoop_sublist (slots : Int) :
    ∀ (l : List (Nat × String × String)) (active : List String) (started : Nat),
    (dispatchLoop slots active started l).Sublist l := by
  intro l
  induction l with
  | nil => intro active started; simp [dispatchLoop]
  | cons x rest ih =>
    intro active started
    by_cases h1 : slots ≤ (started : Int)
    · simp [dispatchLoop, h1]
    · by_cases h2 : x.2.1 ∈ active
      · simp only [dispatchLoop, if_neg h1, if_pos h2]
        exact (ih active started).trans (List.sublist_cons_self x rest)
      · simp only [dispatchLoop, if_neg h1, if_neg h2]
        exact (ih (x.2.1 :: active) (started + 1)).cons₂ x

theorem dispatchLoop_script_not_active (slots : Int) :
    ∀ (l : List (Nat × String × String)) (active : List String) (started : Nat),
    ∀ e ∈ dispatchLoop slots active started l, e.2.1 ∉ active := by
  intro l
  induction l with
  | nil => intro active started e he; simp [dispatchLoop] at he
  | cons x rest ih =>
    intro active started e he
    by_cases h1 : slots ≤ (started : Int)
    · simp [dispatchLoop, h1] at he
    · by_cases h2 : x.2.1 ∈ active
      · simp only [dispatchLoop, if_neg h1, if_pos h2] at he
        exact ih active started e he
      · simp only [dispatchLoop, if_neg h1, if_neg h2] at he
        rcases List.mem_cons.mp he with rfl | hmem
        · exact h2
        · intro hc
          exact ih (x.2.1 :: active) (started + 1) e hmem (List.mem_cons_of_mem _ hc)

theorem dispatchLoop_scripts_nodup (slots : Int) :
    ∀ (l : List (Nat × String × String)) (active : List String) (started : Nat),
    ((dispatchLoop slots active started l).map (fun e => e.2.1)).Nodup := by
  intro l
  induction l with
  | nil => intro active started; simp [dispatchLoop]
  | cons x rest ih =>
    intro active started
    by_cases h1 : slots ≤ (started : Int)
    · simp [dispatchLoop, h1]
    · by_cases h2 : x.2.1 ∈ active
      · simp only [dispatchLoop, if_neg h1, if_pos h2]
        exact ih active started
      · simp only [dispatchLoop, if_neg h1, if_neg h2, List.map_cons]
        refine List.nodup_cons.mpr ⟨?_, ih (x.2.1 :: active) (started + 1)⟩
        intro hc
        rcases List.mem_map.mp hc with ⟨e, he, hex⟩
        exact dispatchLoop_script_not_active slots rest (x.2.1 :: active) (started + 1) e he
          (hex ▸ List.mem_cons_self _ _)

theorem dispatchLoop_length_le (slots : Int) :
    ∀ (l : List (Nat × String × String)) (active : List String) (started : Nat),
    (started : Int) ≤ slots →
    ((dispatchLoop slots active started l).length : Int) ≤ slots - started := by
  intro l
  induction l with
  | nil => intro active started h; simp [dispatchLoop]; omega
  | cons x rest ih =>
    intro active started h
    by_cases h1 : slots ≤ (started : Int)
    · simp [dispatchLoop, h1]; omega
    · by_cases h2 : x.2.1 ∈ active
      · simp only [dispatchLoop, if_neg h1, if_pos h2]
        exact ih active started h
      · simp only [dispatchLoop, if_neg h1, if_neg h2, List.length_cons]
        have hih := ih (x.2.1 :: active) (started + 1) (by push_cast; omega)
        push_cast at hih ⊢
        omega

theorem dispatchLoop_not_second (slots : Int) :
    ∀ (a : List (Nat × String × String)) (e1 e2 : Nat × String × String)
      (b : List (Nat × String × String)) (active : List String) (started : Nat),
    e2.2.1 = e1.2.1 → e2 ∈ b → ((a ++ e1 :: b).map (fun e => e.1)).Nodup →
    e2 ∉ dispatchLoop slots active started (a ++ e1 :: b) := by
  intro a
  induction a with
  | nil =>
    intro e1 e2 b active started hs hmem hnd hin
    rw [List.nil_append] at hin
    rw [List.nil_append] at hnd
    by_cases h1 : slots ≤ (started : Int)
    · simp [dispatchLoop, h1] at hin
    · by_cases h2 : e1.2.1 ∈ active
      · simp only [dispatchLoop, if_neg h1, if_pos h2] at hin
        exact dispatchLoop_script_not_active slots b active started e2 hin (hs ▸ h2)
      · simp only [dispatchLoop, if_neg h1, if_neg h2] at hin
        rcases List.mem_cons.mp hin with heq | hmem2
        · rw [List.map_cons, List.nodup_cons] at hnd
          exact hnd.1 (List.mem_map.mpr ⟨e2, hmem, by rw [heq]⟩)
        · exact dispatchLoop_script_not_active slots b (e1.2.1 :: active) (started + 1) e2
            hmem2 (by rw [hs]; exact List.mem_cons_self _ _)
  | cons x a ih =>
    intro e1 e2 b active started hs hmem hnd hin
    rw [List.cons_append] at hin
    rw [List.cons_append, List.map_cons, List.nodup_cons] at hnd
    by_cases h1 : slots ≤ (started : Int)
    · simp [dispatchLoop, h1] at hin
    · by_cases h2 : x.2.1 ∈ active
      · simp only [dispatchLoop, if_neg h1, if_pos h2] at hin
        exact ih e1 e2 b active started hs hmem hnd.2 hin
      · simp only [dispatchLoop, if_neg h1, if_neg h2] at hin
        rcases List.mem_cons.mp hin with heq | hmem2
        · refine hnd.1 ?_
          rw [← heq]
          exact List.mem_map.mpr ⟨e2, List.mem_append.mpr (Or.inr (List.mem_cons_of_mem _ hmem)), rfl⟩
        · exact ih e1 e2 b (x.2.1 :: active) (started + 1) hs hmem hnd.2 hmem2

/-- Concrete state of the scenario in the spec, section 8 Scenario A:
pending queue in order A(script x), B(script x), C(script y), D(script z). -/
def scenarioDb : List Task :=
  [⟨1, "x", "ux", Status.pending, 1, none, none, none⟩,
   ⟨2, "x", "ux2", Status.pending, 2, none, none, none⟩,
   ⟨3, "y", "uy", Status.pending, 3, none, none, none⟩,
   ⟨4, "z", "uz", Status.pending, 4, none, none, none⟩]

/-- C4: the set of tasks the Dispatcher launches in a tick equals the
spec-described traversal (slots = C minus distinct active scripts, nothing
when slots is not positive, then FIFO traversal skipping active or claimed
scripts until slots are exhausted); and with concurrency 2 and pending queue
[A(x), B(x), C(y), D(z)] exactly A and C are launched. -/
theorem process_queue_refines_spec :
    (∀ (concurrency : Int) (db : List Task),
        process_queue concurrency db = dispatchSpec concurrency db)
    ∧ process_queue 2 scenarioDb = [(1, "x", "ux"), (3, "y", "uy")] := by
  constructor
  · intro concurrency db
    unfold process_queue dispatchSpec
    by_cases h : concurrency - (distinctActiveScripts db).length ≤ (0 : Int)
    · simp [h]
    · simp only [h, if_false]
      simpa using dispatchLoop_eq_specLoop (pendingTriples db)
        (concurrency - (distinctActiveScripts db).length) (distinctActiveScripts db) 0
  · decide

/-- Lookup of the first row with the given id (SELECT ... WHERE id=?). -/
def taskById (db : List Task) (tid : Nat) : Option Task :=
  db.find? fun t => t.id == tid

/-- Update run by the Worker when it starts: UPDATE tasks SET status=active,
start_time=now WHERE id=? (app.py lines 179-182), applied to every task the
tick launched. -/
def markActive (now : Nat) (ids : List Nat) (t : Task) : Task :=
  if t.id ∈ ids then { t with status := Status.active, start_time := some now } else t

/-- Table after a Dispatcher tick whose launched ids are given. -/
def applyLaunch (db : List Task) (ids : List Nat) (now : Nat) : List Task :=
  db.map (markActive now ids)

/-- Terminal update of the Worker: UPDATE tasks SET status=?, end_time=?
WHERE id=? (app.py lines 226-229). -/
def finishTask (db : List Task) (tid : Nat) (st : Status) (now : Nat) : List Task :=
  db.map fun t => if t.id = tid then { t with status := st, end_time := some now } else t

/-- Reset applied by requeue: status pending, log, start_time and end_time
cleared (app.py line 313). -/
def clearTask (t : Task) : Task :=
  { t with status := Status.pending, log := none, start_time := none, end_time := none }

/-- Requeue endpoint (app.py lines 305-319): reports whether the operation
succeeded, together with the resulting table. The task must exist and its
status must be failed; otherwise no update runs and the table is unchanged. -/
def requeue (db : List Task) (tid : Nat) : Bool × List Task :=
  match taskById db tid with
  | none => (false, db)
  | some t =>
    if t.status = Status.failed
    then (true, db.map fun u => if u.id = tid then clearTask u else u)
    else (false, db)

/-- Row created by the add endpoint (app.py lines 295-299). -/
def mkTask (i : Nat) (script url : String) (now : Nat) : Task :=
  ⟨i, script, url, Status.pending, now, none, none, none⟩

/-- Fresh primary key: one more than the largest id in the table. -/
def freshId (db : List Task) : Nat := (db.map Task.id).foldr max 0 + 1

/-- Transition relation of the orchestration core over the task table with a
fixed concurrency setting: a Dispatcher tick marks every task it launches
active, a Worker finishes its active task with a terminal status, and the
boundary operations requeue, enqueue, clear-completed and clear-all. -/
inductive Step (C : Int) : List Task → List Task → Prop
  | tick (db : List Task) (now : Nat) :
      Step C db (applyLaunch db ((process_queue C db).map fun e => e.1) now)
  | finish (db : List Task) (tid : Nat) (st : Status) (now : Nat)
      (hterm : st = Status.completed ∨ st = Status.failed)
      (hact : (taskById db tid).map Task.status = some Status.active) :
      Step C db (finishTask db tid st now)
  | requeueStep (db : List Task) (tid : Nat) :
      Step C db (requeue db tid).2
  | enqueueStep (db : List Task) (script url : String) (now : Nat) :
      Step C db (db ++ [mkTask (freshId db) script url now])
  | clearCompleted (db : List Task) :
      Step C db (db.filter fun t => !(t.status == Status.completed))
  | clearAll (db : List Task) :
      Step C db []

/-- States reachable from the empty table under a fixed concurrency setting. -/
def Reachable (C : Int) (db : List Task) : Prop :=
  Relation.ReflTransGen (Step C) [] db

theorem taskById_some {db : List Task} {tid : Nat} {u : Task}
    (h : taskById db tid = some u) : u ∈ db ∧ u.id = tid := by
  refine ⟨List.mem_of_find?_eq_some h, ?_⟩
  have := List.find?_some h
  simpa using this

theorem task_eq_of_id_eq {db : List Task} (hnd : (db.map Task.id).Nodup)
    {a b : Task} (ha : a ∈ db) (hb : b ∈ db) (h : a.id = b.id) : a = b :=
  List.inj_on_of_nodup_map hnd ha hb h

theorem pendingTriples_ids_nodup {db : List Task} (hnd : (db.map Task.id).Nodup) :
    ((pendingTriples db).map (fun e => e.1)).Nodup := by
  unfold pendingTriples
  rw [List.map_map]
  have hperm : List.Perm (List.insertionSort addedLe (db.filter isPending)) (db.filter isPending) :=
    List.perm_insertionSort addedLe _
  have hsub : ((db.filter isPending).map Task.id).Sublist (db.map Task.id) :=
    (List.filter_sublist db).map Task.id
  have hnd2 : ((db.filter isPending).map Task.id).Nodup := hnd.sublist hsub
  exact (hperm.map Task.id).nodup_iff.mpr hnd2

theorem mem_pendingSorted_iff {db : List Task} {t : Task} :
    t ∈ List.insertionSort addedLe (db.filter isPending) ↔
      t ∈ db ∧ t.status = Status.pending := by
  rw [(List.perm_insertionSort addedLe _).mem_iff, List.mem_filter]
  simp [isPending]

/-- Core of FIFO-within-script: when two pending tasks share a script and the
first was added strictly earlier, the later one is not launched by the tick. -/
theorem not_launched_of_earlier_pending (C : Int) (db : List Task) (t1 t2 : Task)
    (hnd : (db.map Task.id).Nodup) (h1 : t1 ∈ db) (h2 : t2 ∈ db)
    (hp1 : t1.status = Status.pending) (hp2 : t2.status = Status.pending)
    (hs : t1.script = t2.script) (ht : t1.added_time < t2.added_time) :
    ∀ e ∈ process_queue C db, e.1 ≠ t2.id := by
  intro e he heq
  set pendingList := List.insertionSort addedLe (db.filter isPending) with hpl
  have ht1 : t1 ∈ pendingList := mem_pendingSorted_iff.mpr ⟨h1, hp1⟩
  have ht2 : t2 ∈ pendingList := mem_pendingSorted_iff.mpr ⟨h2, hp2⟩
  have hndP : (pendingList.map Task.id).Nodup := by
    have hperm : List.Perm pendingList (db.filter isPending) := List.perm_insertionSort addedLe _
    have hsub : ((db.filter isPending).map Task.id).Sublist (db.map Task.id) :=
      (List.filter_sublist db).map Task.id
    exact (hperm.map Task.id).nodup_iff.mpr (hnd.sublist hsub)
  obtain ⟨a, b, hdecomp⟩ := List.append_of_mem ht1
  have hsorted : List.Pairwise addedLe pendingList := List.sorted_insertionSort addedLe _
  have ht2b : t2 ∈ b := by
    rw [hdecomp] at ht2
    rcases List.mem_append.mp ht2 with hA | hB
    · exfalso
      rw [hdecomp] at hsorted
      have := (List.pairwise_append.mp hsorted).2.2 t2 hA t1 (List.mem_cons_self _ _)
      exact absurd this (by unfold addedLe; omega)
    · rcases List.mem_cons.mp hB with hEq | hB2
      · exact absurd (congrArg Task.added_time hEq) (by omega)
      · exact hB2
  -- the launched triple e comes from the pending list and must be the triple of t2
  have hpq : e ∈ pendingTriples db := by
    unfold process_queue at he
    by_cases hslots : C - ((distinctActiveScripts db).length : Int) ≤ 0
    · simp [hslots] at he
    · simp only [hslots, if_false] at he
      exact (dispatchLoop_sublist _ _ _ _).mem he
  obtain ⟨u, hu, hue⟩ := List.mem_map.mp hpq
  have hu2 : u = t2 := by
    refine List.inj_on_of_nodup_map hndP hu ht2 ?_
    have : e.1 = u.id := by rw [← hue]
    omega
  -- but the loop never emits the later triple of a script
  have htriple : pendingTriples db =
      a.map (fun t => (t.id, t.script, t.url)) ++
        (t1.id, t1.script, t1.url) :: b.map (fun t => (t.id, t.script, t.url)) := by
    unfold pendingTriples
    rw [← hpl, hdecomp]
    simp
  have hnotin := dispatchLoop_not_second (C - ((distinctActiveScripts db).length : Int))
    (a.map (fun t => (t.id, t.script, t.url))) (t1.id, t1.script, t1.url)
    (t2.id, t2.script, t2.url) (b.map (fun t => (t.id, t.script, t.url)))
    (distinctActiveScripts db) 0 (by simpa using hs.symm)
    (List.mem_map.mpr ⟨t2, ht2b, rfl⟩) ?_ ?_
  · exact hnotin.elim
  · rw [← htriple]
    exact pendingTriples_ids_nodup hnd
  · rw [← htriple]
    unfold process_queue at he
    by_cases hslots : C - ((distinctActiveScripts db).length : Int) ≤ 0
    · simp [hslots] at he
    · simp only [hslots, if_false] at he
      have : e = (t2.id, t2.script, t2.url) := by rw [← hue, hu2]
      rwa [← this]

theorem markActive_id (now : Nat) (ids : List Nat) (t : Task) :
    (markActive now ids t).id = t.id := by
  unfold markActive; split <;> rfl

/-- C3: FIFO within script. While an earlier pending task of the same script
exists, no step of the Dispatcher relation can put the later task into the
active state, so the earlier task transitions to active strictly first. -/
theorem fifo_within_script (C : Int) (db db' : List Task) (t1 t2 : Task)
    (hnd : (db.map Task.id).Nodup)
    (h1 : t1 ∈ db) (h2 : t2 ∈ db)
    (hp1 : t1.status = Status.pending) (hp2 : t2.status = Status.pending)
    (hs : t1.script = t2.script) (ht : t1.added_time < t2.added_time)
    (hstep : Step C db db') :
    (taskById db' t2.id).map Task.status ≠ some Status.active := by
  intro hcon
  obtain ⟨u, hfind, hust⟩ : ∃ u, taskById db' t2.id = some u ∧ u.status = Status.active := by
    cases hob : taskById db' t2.id with
    | none => rw [hob] at hcon; simp at hcon
    | some u =>
        rw [hob] at hcon
        exact ⟨u, rfl, by injection hcon⟩
  obtain ⟨humem, huid⟩ := taskById_some hfind
  cases hstep with
  | tick now =>
      obtain ⟨v, hv, hvu⟩ := List.mem_map.mp humem
      have hvid : v.id = t2.id := by rw [← huid, ← hvu, markActive_id]
      have hv2 : v = t2 := task_eq_of_id_eq hnd hv h2 hvid
      subst hv2
      by_cases hin : v.id ∈ (process_queue C db).map fun e => e.1
      · obtain ⟨e, he, hee⟩ := List.mem_map.mp hin
        exact not_launched_of_earlier_pending C db t1 v hnd h1 h2 hp1 hp2 hs ht e he hee
      · rw [← hvu] at hust
        unfold markActive at hust
        rw [if_neg hin] at hust
        rw [hp2] at hust
        exact absurd hust (by simp)
  | finish tid st now hterm hact =>
      obtain ⟨v, hv, hvu⟩ := List.mem_map.mp humem
      have hvid : v.id = t2.id := by
        rw [← huid, ← hvu]
        split <;> rfl
      have hv2 : v = t2 := task_eq_of_id_eq hnd hv h2 hvid
      subst hv2
      rw [← hvu] at hust
      by_cases hi : v.id = tid
      · rw [if_pos hi] at hust
        rcases hterm with rfl | rfl <;> simp at hust
      · rw [if_neg hi] at hust
        rw [hp2] at hust
        exact absurd hust (by simp)
  | requeueStep tid =>
      have hunch : u ∈ db → False := by
        intro humem2
        have : u = t2 := task_eq_of_id_eq hnd humem2 h2 huid
        rw [this, hp2] at hust
        exact absurd hust (by simp)
      cases hq : taskById db tid with
      | none => simp only [requeue, hq] at humem; exact hunch humem
      | some t =>
          simp only [requeue, hq] at humem
          by_cases hf : t.status = Status.failed
          · rw [if_pos hf] at humem
            obtain ⟨v, hv, hvu⟩ := List.mem_map.mp humem
            have hvid : v.id = t2.id := by
              rw [← huid, ← hvu]
              split <;> rfl
            have hv2 : v = t2 := task_eq_of_id_eq hnd hv h2 hvid
            subst hv2
            rw [← hvu] at hust
            by_cases hi : v.id = tid
            · rw [if_pos hi] at hust
              simp [clearTask] at hust
            · rw [if_neg hi] at hust
              rw [hp2] at hust
              exact absurd hust (by simp)
          · rw [if_neg hf] at humem
            exact hunch humem
  | enqueueStep script url now =>
      rcases List.mem_append.mp humem with hin | hnew
      · have : u = t2 := task_eq_of_id_eq hnd hin h2 huid
        rw [this, hp2] at hust
        exact absurd hust (by simp)
      · have : u = mkTask (freshId db) script url now := by simpa using hnew
        rw [this] at hust
        simp [mkTask] at hust
  | clearCompleted =>
      have hin : u ∈ db := List.mem_of_mem_filter humem
      have : u = t2 := task_eq_of_id_eq hnd hin h2 huid
      rw [this, hp2] at hust
      exact absurd hust (by simp)
  | clearAll =>
      simp at humem

theorem markActive_script (now : Nat) (ids : List Nat) (t : Task) :
    (markActive now ids t).script = t.script := by
  unfold markActive; split <;> rfl

theorem markActive_active_iff (now : Nat) (ids : List Nat) (t : Task) :
    isActive (markActive now ids t) = true ↔ t.id ∈ ids ∨ isActive t = true := by
  unfold markActive
  split
  · simp [isActive, *]
  · simp [*]

theorem process_queue_mem (C : Int) (db : List Task) :
    ∀ e ∈ process_queue C db,
      ∃ t, t ∈ db ∧ t.status = Status.pending ∧ e = (t.id, t.script, t.url) := by
  intro e he
  have hpq : e ∈ pendingTriples db := by
    unfold process_queue at he
    by_cases hslots : C - ((distinctActiveScripts db).length : Int) ≤ 0
    · simp [hslots] at he
    · simp only [hslots, if_false] at he
      exact (dispatchLoop_sublist _ _ _ _).mem he
  obtain ⟨t, ht, hte⟩ := List.mem_map.mp hpq
  obtain ⟨htm, hts⟩ := mem_pendingSorted_iff.mp ht
  exact ⟨t, htm, hts, hte.symm⟩

theorem process_queue_script_not_active (C : Int) (db : List Task) :
    ∀ e ∈ process_queue C db, e.2.1 ∉ (db.filter isActive).map Task.script := by
  intro e he hc
  unfold process_queue at he
  by_cases hslots : C - ((distinctActiveScripts db).length : Int) ≤ 0
  · simp [hslots] at he
  · simp only [hslots, if_false] at he
    exact dispatchLoop_script_not_active _ _ _ _ e he (List.mem_dedup.mpr hc)

theorem process_queue_scripts_nodup (C : Int) (db : List Task) :
    ((process_queue C db).map (fun e => e.2.1)).Nodup := by
  unfold process_queue
  by_cases hslots : C - ((distinctActiveScripts db).length : Int) ≤ 0
  · simp [hslots]
  · simp only [hslots, if_false]
    exact dispatchLoop_scripts_nodup _ _ _ _

theorem process_queue_ids_nodup (C : Int) (db : List Task)
    (hnd : (db.map Task.id).Nodup) :
    ((process_queue C db).map (fun e => e.1)).Nodup := by
  unfold process_queue
  by_cases hslots : C - ((distinctActiveScripts db).length : Int) ≤ 0
  · simp [hslots]
  · simp only [hslots, if_false]
    exact (pendingTriples_ids_nodup hnd).sublist
      ((dispatchLoop_sublist _ _ _ _).map (fun e => e.1))

theorem launched_entry (C : Int) (db : List Task) (hnd : (db.map Task.id).Nodup)
    {t : Task} (htm : t ∈ db) (hin : t.id ∈ (process_queue C db).map (fun e => e.1)) :
    t.status = Status.pending ∧ (t.id, t.script, t.url) ∈ process_queue C db := by
  obtain ⟨e, he, hee⟩ := List.mem_map.mp hin
  obtain ⟨u, hu, hup, hue⟩ := process_queue_mem C db e he
  have huid : u.id = t.id := by rw [hue] at hee; simpa using hee
  have : u = t := task_eq_of_id_eq hnd hu htm huid
  subst this
  exact ⟨hup, hue ▸ he⟩

/-- Invariant carried through every reachable state: primary keys are unique,
no two active tasks share a script, and the number of active tasks stays
within the concurrency setting. -/
def Inv (C : Int) (db : List Task) : Prop :=
  (db.map Task.id).Nodup ∧
  db.Pairwise (fun t u => isActive t = true → isActive u = true → t.script ≠ u.script) ∧
  ((db.filter isActive).length : Int) ≤ C

theorem scripts_nodup_of_pairwise {db : List Task}
    (h : db.Pairwise (fun t u => isActive t = true → isActive u = true → t.script ≠ u.script)) :
    ((db.filter isActive).map Task.script).Nodup := by
  have h1 : (db.filter isActive).Pairwise
      (fun t u => isActive t = true → isActive u = true → t.script ≠ u.script) :=
    h.sublist (List.filter_sublist db)
  have h2 : (db.filter isActive).Pairwise (fun t u => t.script ≠ u.script) :=
    h1.imp_of_mem fun ha hb hr =>
      hr (List.of_mem_filter ha) (List.of_mem_filter hb)
  exact h2.map Task.script (fun _ _ hne => hne)

theorem countP_or_le (p q : Task → Bool) (l : List Task) :
    l.countP (fun t => p t || q t) ≤ l.countP p + l.countP q := by
  induction l with
  | nil => simp
  | cons x xs ih =>
    by_cases hp : p x <;> by_cases hq : q x <;>
      simp [List.countP_cons, hp, hq] <;> omega

theorem countP_id_mem_le (db : List Task) (L : List Nat)
    (hnd : (db.map Task.id).Nodup) :
    db.countP (fun t => decide (t.id ∈ L)) ≤ L.length := by
  rw [List.countP_eq_length_filter]
  have h1 : ((db.filter fun t => decide (t.id ∈ L)).map Task.id).Nodup :=
    hnd.sublist ((List.filter_sublist db).map Task.id)
  have h2 : ((db.filter fun t => decide (t.id ∈ L)).map Task.id) ⊆ L := by
    intro i hi
    obtain ⟨t, ht, rfl⟩ := List.mem_map.mp hi
    have := List.of_mem_filter ht
    simpa using this
  calc (db.filter fun t => decide (t.id ∈ L)).length
      = ((db.filter fun t => decide (t.id ∈ L)).map Task.id).length :=
        (List.length_map _ _).symm
    _ ≤ L.length := (h1.subperm h2).length_le

theorem process_queue_length_le (C : Int) (db : List Task)
    (hpair : db.Pairwise fun t u =>
      isActive t = true → isActive u = true → t.script ≠ u.script)
    (hcount : ((db.filter isActive).length : Int) ≤ C) :
    ((process_queue C db).length : Int) ≤ C - (db.filter isActive).length := by
  have hnodup := scripts_nodup_of_pairwise hpair
  have hlen : (distinctActiveScripts db).length = (db.filter isActive).length := by
    unfold distinctActiveScripts
    rw [List.dedup_eq_self.mpr hnodup, List.length_map]
  unfold process_queue
  by_cases hslots : C - ((distinctActiveScripts db).length : Int) ≤ 0
  · simp only [hslots, if_true, List.length_nil]
    omega
  · simp only [hslots, if_false]
    have hle := dispatchLoop_length_le (C - ((distinctActiveScripts db).length : Int))
      (pendingTriples db) (distinctActiveScripts db) 0 (by omega)
    rw [← hlen]
    simpa using hle

theorem inv_tick (C : Int) (db : List Task) (now : Nat) (hinv : Inv C db) :
    Inv C (applyLaunch db ((process_queue C db).map fun e => e.1) now) := by
  obtain ⟨hnd, hpair, hcount⟩ := hinv
  set L := (process_queue C db).map (fun e => e.1) with hL
  have hids : (applyLaunch db L now).map Task.id = db.map Task.id := by
    unfold applyLaunch
    rw [List.map_map]
    exact List.map_congr_left fun t _ => markActive_id now L t
  refine ⟨by rw [hids]; exact hnd, ?_, ?_⟩
  · have hIdNe : db.Pairwise (fun t u => t.id ≠ u.id) := List.pairwise_map.mp hnd
    have hR : db.Pairwise (fun t u =>
        (t.id ∈ L ∨ isActive t = true) → (u.id ∈ L ∨ isActive u = true) →
          t.script ≠ u.script) := by
      refine (hpair.and hIdNe).imp_of_mem ?_
      intro t u htm hum hr h1 h2
      rcases h1 with h1L | h1A
      · obtain ⟨hp1, he1⟩ := launched_entry C db hnd htm h1L
        rcases h2 with h2L | h2A
        · obtain ⟨hp2, he2⟩ := launched_entry C db hnd hum h2L
          intro hsc
          have hND := process_queue_scripts_nodup C db
          have heq := List.inj_on_of_nodup_map hND he1 he2 (by simpa using hsc)
          have : t.id = u.id := by
            have := congrArg (fun e => e.1) heq
            simpa using this
          exact hr.2 this
        · intro hsc
          refine process_queue_script_not_active C db _ he1 ?_
          show t.script ∈ (db.filter isActive).map Task.script
          rw [hsc]
          exact List.mem_map.mpr ⟨u, List.mem_filter.mpr ⟨hum, h2A⟩, rfl⟩
      · rcases h2 with h2L | h2A
        · obtain ⟨hp2, he2⟩ := launched_entry C db hnd hum h2L
          intro hsc
          refine process_queue_script_not_active C db _ he2 ?_
          show u.script ∈ (db.filter isActive).map Task.script
          exact List.mem_map.mpr ⟨t, List.mem_filter.mpr ⟨htm, h1A⟩, hsc⟩
        · exact hr.1 h1A h2A
    show (applyLaunch db L now).Pairwise _
    unfold applyLaunch
    rw [List.pairwise_map]
    refine hR.imp ?_
    intro t u h ht hu
    rw [markActive_script, markActive_script]
    exact h ((markActive_active_iff now L t).mp ht) ((markActive_active_iff now L u).mp hu)
  · have hq := process_queue_length_le C db hpair hcount
    have hLlen : L.length = (process_queue C db).length := by
      rw [hL, List.length_map]
    have h1 : (db.map (markActive now L)).countP isActive
        = db.countP (isActive ∘ markActive now L) := List.countP_map _ _ _
    have h2 : db.countP (isActive ∘ markActive now L)
        ≤ db.countP (fun t => decide (t.id ∈ L) || isActive t) := by
      refine List.countP_mono_left ?_
      intro t _ h
      have := (markActive_active_iff now L t).mp h
      rcases this with hm | ha
      · simp [hm]
      · simp [ha]
    have h3 := countP_or_le (fun t => decide (t.id ∈ L)) isActive db
    have h4 := countP_id_mem_le db L hnd
    have h5 : db.countP isActive = (db.filter isActive).length :=
      List.countP_eq_length_filter _ _
    show (((db.map (markActive now L)).filter isActive).length : Int) ≤ C
    rw [← List.countP_eq_length_filter]
    rw [← List.countP_eq_length_filter] at hcount
    omega

theorem inv_map_non_activating (C : Int) (db : List Task) (f : Task → Task)
    (hid : ∀ t, (f t).id = t.id) (hscript : ∀ t, (f t).script = t.script)
    (hact : ∀ t, isActive (f t) = true → isActive t = true)
    (hinv : Inv C db) : Inv C (db.map f) := by
  obtain ⟨hnd, hpair, hcount⟩ := hinv
  refine ⟨?_, ?_, ?_⟩
  · rw [List.map_map]
    have heq : db.map (Task.id ∘ f) = db.map Task.id :=
      List.map_congr_left fun t _ => hid t
    rw [heq]
    exact hnd
  · rw [List.pairwise_map]
    refine hpair.imp ?_
    intro t u h ht hu
    rw [hscript, hscript]
    exact h (hact t ht) (hact u hu)
  · show (((db.map f).filter isActive).length : Int) ≤ C
    rw [← List.countP_eq_length_filter]
    rw [← List.countP_eq_length_filter] at hcount
    have h1 : (db.map f).countP isActive = db.countP (isActive ∘ f) :=
      List.countP_map _ _ _
    have h2 : db.countP (isActive ∘ f) ≤ db.countP isActive :=
      List.countP_mono_left fun t _ h => hact t h
    omega

theorem le_foldr_max (l : List Nat) : ∀ i ∈ l, i ≤ l.foldr max 0 := by
  induction l with
  | nil => simp
  | cons x xs ih =>
    intro i hi
    rcases List.mem_cons.mp hi with rfl | hmem
    · exact Nat.le_max_left _ _
    · exact le_trans (ih i hmem) (Nat.le_max_right _ _)

theorem freshId_not_mem (db : List Task) : freshId db ∉ db.map Task.id := by
  intro h
  have := le_foldr_max (db.map Task.id) _ h
  unfold freshId at this
  omega

theorem inv_step (C : Int) {db db' : List Task} (hinv : Inv C db)
    (hstep : Step C db db') : Inv C db' := by
  cases hstep with
  | tick now => exact inv_tick C db now hinv
  | finish tid st now hterm hact =>
      refine inv_map_non_activating C db _ ?_ ?_ ?_ hinv
      · intro t; split <;> rfl
      · intro t; split <;> rfl
      · intro t h
        by_cases hi : t.id = tid
        · rw [if_pos hi] at h
          exfalso
          rcases hterm with rfl | rfl <;> simp [isActive] at h
        · rwa [if_neg hi] at h
  | requeueStep tid =>
      cases hq : taskById db tid with
      | none => simp only [requeue, hq]; exact hinv
      | some t =>
          by_cases hf : t.status = Status.failed
          · simp only [requeue, hq, if_pos hf]
            refine inv_map_non_activating C db _ ?_ ?_ ?_ hinv
            · intro u; split <;> rfl
            · intro u; split <;> rfl
            · intro u h
              by_cases hi : u.id = tid
              · rw [if_pos hi] at h
                exfalso
                simp [clearTask, isActive] at h
              · rwa [if_neg hi] at h
          · simp only [requeue, hq, if_neg hf]
            exact hinv
  | enqueueStep script url now =>
      obtain ⟨hnd, hpair, hcount⟩ := hinv
      refine ⟨?_, ?_, ?_⟩
      · rw [List.map_append]
        rw [List.nodup_append]
        refine ⟨hnd, List.nodup_singleton _, ?_⟩
        intro i hi hmem
        have : i = freshId db := by simpa [mkTask] using hmem
        rw [this] at hi
        exact freshId_not_mem db hi
      · rw [List.pairwise_append]
        refine ⟨hpair, List.pairwise_singleton _ _, ?_⟩
        intro t ht u hu h1 h2
        have : u = mkTask (freshId db) script url now := by simpa using hu
        rw [this] at h2
        exact absurd h2 (by simp [mkTask, isActive])
      · rw [List.filter_append]
        have hnil : List.filter isActive [mkTask (freshId db) script url now] = [] := rfl
        rw [hnil, List.append_nil]
        exact hcount
  | clearCompleted =>
      obtain ⟨hnd, hpair, hcount⟩ := hinv
      have hsub := List.filter_sublist (p := fun t => !(t.status == Status.completed)) db
      refine ⟨hnd.sublist (hsub.map Task.id), hpair.sublist hsub, ?_⟩
      have hlen := ((hsub.filter isActive).length_le)
      have h0 : ((db.filter isActive).length : Int) ≤ C := hcount
      omega
  | clearAll =>
      obtain ⟨_, _, hcount⟩ := hinv
      have h0 : (0 : Int) ≤ C := le_trans (by positivity) hcount
      exact ⟨by simp, by simp, by simpa using h0⟩

theorem inv_reachable (C : Int) (hC : 0 ≤ C) {db : List Task} (h : Reachable C db) :
    Inv C db := by
  induction h with
  | refl => exact ⟨by simp, by simp, by simpa using hC⟩
  | tail hsteps hstep ih => exact inv_step C ih hstep

/-- C1: in every state reachable under a fixed concurrency ceiling C, the
number of active tasks never exceeds min C K, where K is the number of
distinct scripts represented among pending and active tasks, and for every
script at most one task with that script is active. -/
theorem active_within_ceiling (C : Int) (db : List Task) (hC : 0 ≤ C)
    (hreach : Reachable C db) :
    ((db.filter isActive).length : Int) ≤
        min C ((((db.filter fun t => isPending t || isActive t).map Task.script).dedup.length : Int))
    ∧ ((db.filter isActive).map Task.script).Nodup := by
  obtain ⟨hnd, hpair, hcount⟩ := inv_reachable C hC hreach
  have hnodup := scripts_nodup_of_pairwise hpair
  refine ⟨?_, hnodup⟩
  rw [le_min_iff]
  refine ⟨hcount, ?_⟩
  have hsubset : ((db.filter isActive).map Task.script) ⊆
      ((db.filter fun t => isPending t || isActive t).map Task.script).dedup := by
    intro s hs
    obtain ⟨t, ht, rfl⟩ := List.mem_map.mp hs
    rw [List.mem_dedup]
    refine List.mem_map.mpr ⟨t, ?_, rfl⟩
    have hm := List.mem_filter.mp ht
    exact List.mem_filter.mpr ⟨hm.1, by simp [hm.2]⟩
  have hlen := (hnodup.subperm hsubset).length_le
  rw [List.length_map] at hlen
  exact_mod_cast hlen

/-- Concrete table used to exercise the FIFO theorem: two pending tasks of
the same script, the first added earlier. -/
def fifoDb : List Task :=
  [⟨1, "x", "u1", Status.pending, 1, none, none, none⟩,
   ⟨2, "x", "u2", Status.pending, 2, none, none, none⟩]

theorem fifo_within_script_witness :
    (taskById (applyLaunch fifoDb ((process_queue 2 fifoDb).map fun e => e.1) 5) 2).map
        Task.status ≠ some Status.active :=
  fifo_within_script 2 fifoDb _
    ⟨1, "x", "u1", Status.pending, 1, none, none, none⟩
    ⟨2, "x", "u2", Status.pending, 2, none, none, none⟩
    (by decide) (by decide) (by decide) rfl rfl rfl (by decide)
    (Step.tick fifoDb 5)

/-- Table after one enqueue from the empty table. -/
def wdb1 : List Task := [] ++ [mkTask (freshId []) "x" "u1" 1]

/-- Table after a second enqueue of the same script. -/
def wdb2 : List Task := wdb1 ++ [mkTask (freshId wdb1) "x" "u2" 2]

/-- Table after a Dispatcher tick with concurrency 3. -/
def wdb3 : List Task := applyLaunch wdb2 ((process_queue 3 wdb2).map fun e => e.1) 5

theorem wdb3_reachable : Reachable 3 wdb3 :=
  Relation.ReflTransGen.tail
    (Relation.ReflTransGen.tail
      (Relation.ReflTransGen.tail Relation.ReflTransGen.refl
        (Step.enqueueStep [] "x" "u1" 1))
      (Step.enqueueStep wdb1 "x" "u2" 2))
    (Step.tick wdb2 5)

theorem active_within_ceiling_witness :
    (0 : Int) ≤ 3 ∧
      (((wdb3.filter isActive).length : Int) ≤
          min 3 ((((wdb3.filter fun t => isPending t || isActive t).map
            Task.script).dedup.length : Int))
        ∧ ((wdb3.filter isActive).map Task.script).Nodup) :=
  ⟨by decide, active_within_ceiling 3 wdb3 (by decide) wdb3_reachable⟩

/-- Join of captured lines, as in joining the log_lines list into one log
text before a store write. -/
def joinLines (l : List String) : String := String.join l

/-- String a is an initial segment of string b. -/
def logStart (a b : String) : Prop := ∃ c, a ++ c = b

theorem joinLines_append (a b : List String) :
    joinLines (a ++ b) = joinLines a ++ joinLines b := by
  unfold joinLines
  rw [String.join_eq, String.join_eq, String.join_eq]
  apply String.ext
  simp

theorem logStart_join (pre rest : List String) :
    logStart (joinLines pre) (joinLines (pre ++ rest)) :=
  ⟨joinLines rest, (joinLines_append pre rest).symm⟩

/-- State of the log capture loop of run_task (app.py lines 194-212):
the accumulated lines, the line counter since the last successful flush, the
time of the last successful flush, the number of flush attempts so far (used
to index the store-fault oracle) and the log values successfully written to
the store, in order. -/
structure LogLoopState where
  log_lines : List String
  line_count : Nat
  last_update : Nat
  attempts : Nat
  persisted : List String

/-- Environment of one Worker execution: success flags for each store write
the code performs (a false flag means the statement raised after the retry
bound), the captured lines paired with their capture times, the process exit
code, and the timestamps taken. -/
structure RunEnv where
  markOk : Bool
  launchOk : Bool
  items : List (String × Nat)
  interFlushOk : Nat → Bool
  finalFlushOk : Bool
  exitCode : Int
  statusWriteOk : Bool
  failWriteOk : Bool
  tStart : Nat
  tEnd : Nat
  tFail : Nat
  t0 : Nat

/-- One iteration of the capture loop (app.py lines 199-212): append the
line, bump the counter, and when 50 lines accumulated or 10 seconds passed
attempt to write the whole accumulated log; a successful write resets the
counter and the flush clock but never clears the line buffer; a failed write
is swallowed, leaving counter and clock unchanged. -/
def logStep (env : RunEnv) (st : LogLoopState) (item : String × Nat) : LogLoopState :=
  if st.line_count + 1 ≥ 50 ∨ item.2 - st.last_update ≥ 10 then
    if env.interFlushOk st.attempts then
      { log_lines := st.log_lines ++ [item.1], line_count := 0, last_update := item.2,
        attempts := st.attempts + 1,
        persisted := st.persisted ++ [joinLines (st.log_lines ++ [item.1])] }
    else
      { log_lines := st.log_lines ++ [item.1], line_count := st.line_count + 1,
        last_update := st.last_update, attempts := st.attempts + 1,
        persisted := st.persisted }
  else
    { log_lines := st.log_lines ++ [item.1], line_count := st.line_count + 1,
      last_update := st.last_update, attempts := st.attempts,
      persisted := st.persisted }

/-- Full run of the capture loop over the captured output. -/
def logLoop (env : RunEnv) : LogLoopState :=
  env.items.foldl (logStep env) ⟨[], 0, env.t0, 0, []⟩

/-- Task fields owned by the Worker. -/
structure TaskRec where
  status : Status
  start_time : Option Nat
  end_time : Option Nat
  log : Option String
  deriving DecidableEq

/-- Result of one Worker execution: the final row state, the log values
written to the store in order, and whether the try block raised. -/
structure WorkerResult where
  task : TaskRec
  persistedLogs : List String
  raised : Bool

/-- Log column after a sequence of successful whole-log writes: the last
write wins; with no write the column keeps its previous value. -/
def lastLog (persisted : List String) (old : Option String) : Option String :=
  match persisted.getLast? with
  | some s => some s
  | none => old

/-- Exception handler of run_task (app.py lines 231-239): attempt to force
the task to failed with the current timestamp; if that update also raises,
the error is swallowed and the row keeps its previous state. -/
def handleFailure (env : RunEnv) (t : TaskRec) (persisted : List String) : WorkerResult :=
  if env.failWriteOk then
    ⟨{ t with status := Status.failed, end_time := some env.tFail }, persisted, true⟩
  else ⟨t, persisted, true⟩

/-- Row state after the mark-active update (app.py lines 179-182). -/
def afterMark (env : RunEnv) (t0 : TaskRec) : TaskRec :=
  { t0 with status := Status.active, start_time := some env.tStart }

/-- All log values written during the run: the loop flushes followed by the
final whole-log flush when its write succeeds (app.py lines 214-219). -/
def runPersisted (env : RunEnv) : List String :=
  if env.finalFlushOk then (logLoop env).persisted ++ [joinLines (logLoop env).log_lines]
  else (logLoop env).persisted

/-- Row state after the capture loop and final flush. -/
def afterLog (env : RunEnv) (t0 : TaskRec) : TaskRec :=
  { afterMark env t0 with log := lastLog (runPersisted env) t0.log }

/-- Worker body (run_task, app.py lines 172-243): mark active, launch the
process, stream and batch-persist the log, resolve the terminal status from
the exit code; any raising store write after the mark diverts to the
exception handler, and the handler itself may fail to write. -/
def run_task (env : RunEnv) (t0 : TaskRec) : WorkerResult :=
  if env.markOk then
    if env.launchOk then
      if env.statusWriteOk then
        ⟨{ afterLog env t0 with
            status := if env.exitCode = 0 then Status.completed else Status.failed,
            end_time := some env.tEnd }, runPersisted env, false⟩
      else handleFailure env (afterLog env t0) (runPersisted env)
    else handleFailure env (afterMark env t0) []
  else handleFailure env t0 []

theorem logLoop_buffer (env : RunEnv) :
    (logLoop env).log_lines = env.items.map (fun i => i.1) := by
  suffices h : ∀ (items : List (String × Nat)) (st : LogLoopState),
      (items.foldl (logStep env) st).log_lines = st.log_lines ++ items.map (fun i => i.1) by
    simpa using h env.items ⟨[], 0, env.t0, 0, []⟩
  intro items
  induction items with
  | nil => intro st; simp
  | cons x xs ih =>
    intro st
    rw [List.foldl_cons, ih]
    have hx : (logStep env st x).log_lines = st.log_lines ++ [x.1] := by
      unfold logStep
      split
      · split <;> rfl
      · rfl
    rw [hx]
    simp

/-- Invariant of the capture loop: the persisted values are prefix-monotone
and each one is the join of an initial segment of the line buffer. -/
def BufInv (st : LogLoopState) : Prop :=
  List.Pairwise logStart st.persisted ∧
  ∀ s ∈ st.persisted, ∃ pre rest, pre ++ rest = st.log_lines ∧ s = joinLines pre

theorem logStep_inv (env : RunEnv) (st : LogLoopState) (item : String × Nat)
    (h : BufInv st) : BufInv (logStep env st item) := by
  obtain ⟨hpw, hpre⟩ := h
  unfold logStep
  by_cases hcond : st.line_count + 1 ≥ 50 ∨ item.2 - st.last_update ≥ 10
  · by_cases hok : env.interFlushOk st.attempts
    · rw [if_pos hcond, if_pos hok]
      constructor
      · rw [List.pairwise_append]
        refine ⟨hpw, List.pairwise_singleton _ _, ?_⟩
        intro s hs b hb
        have hb2 : b = joinLines (st.log_lines ++ [item.1]) := by simpa using hb
        obtain ⟨pre, rest, hsplit, rfl⟩ := hpre s hs
        rw [hb2, ← hsplit, List.append_assoc]
        exact logStart_join _ _
      · intro s hs
        rcases List.mem_append.mp hs with hs1 | hs2
        · obtain ⟨pre, rest, hsplit, hjoin⟩ := hpre s hs1
          exact ⟨pre, rest ++ [item.1], by rw [← List.append_assoc, hsplit], hjoin⟩
        · have hs3 : s = joinLines (st.log_lines ++ [item.1]) := by simpa using hs2
          exact ⟨st.log_lines ++ [item.1], [], by simp, hs3⟩
    · rw [if_pos hcond, if_neg hok]
      refine ⟨hpw, ?_⟩
      intro s hs
      obtain ⟨pre, rest, hsplit, hjoin⟩ := hpre s hs
      exact ⟨pre, rest ++ [item.1], by rw [← List.append_assoc, hsplit], hjoin⟩
  · rw [if_neg hcond]
    refine ⟨hpw, ?_⟩
    intro s hs
    obtain ⟨pre, rest, hsplit, hjoin⟩ := hpre s hs
    exact ⟨pre, rest ++ [item.1], by rw [← List.append_assoc, hsplit], hjoin⟩

theorem logLoop_inv (env : RunEnv) : BufInv (logLoop env) := by
  suffices h : ∀ (items : List (String × Nat)) (st : LogLoopState), BufInv st →
      BufInv (items.foldl (logStep env) st) from
    h env.items ⟨[], 0, env.t0, 0, []⟩ ⟨List.Pairwise.nil, by intro s hs; simp at hs⟩
  intro items
  induction items with
  | nil => intro st h; exact h
  | cons x xs ih => intro st h; exact ih _ (logStep_inv env st x h)

theorem run_task_persistedLogs (env : RunEnv) (t0 : TaskRec) :
    (run_task env t0).persistedLogs =
      if env.markOk = true ∧ env.launchOk = true then runPersisted env else [] := by
  unfold run_task handleFailure
  by_cases hm : env.markOk = true <;> by_cases hl : env.launchOk = true <;>
    by_cases hw : env.statusWriteOk = true <;> by_cases hb : env.failWriteOk = true <;>
      simp [hm, hl, hw, hb]

/-- Concrete initial row: a pending task with no timestamps and no log. -/
def trec0 : TaskRec := ⟨Status.pending, none, none, none⟩

/-- Environment where the process runs to exit code 0 but the terminal
status write and the recovery write both raise. -/
def env_c2 : RunEnv := ⟨true, true, [], fun _ => true, true, 0, false, false, 1, 2, 3, 0⟩

/-- C2 counterexample: a Worker execution that raises after marking the task
active (the terminal status write fails after the retry bound) and whose
recovery write also raises leaves the task in status active, refuting the
claim that such an execution always ends with status failed. -/
theorem run_task_stuck_active :
    (run_task env_c2 trec0).raised = true
    ∧ (run_task env_c2 trec0).task.status = Status.active := by decide

/-- C2 amended: whenever the recovery store write succeeds, a Worker
execution that raises after marking the task active ends with the task
failed and an end timestamp, and no execution leaves the task active; the
unconditional claim fails only when the recovery write itself raises. -/
theorem run_task_no_stuck_active (env : RunEnv) (t0 : TaskRec)
    (hfw : env.failWriteOk = true) :
    ((run_task env t0).raised = true →
        (run_task env t0).task.status = Status.failed
        ∧ (run_task env t0).task.end_time = some env.tFail)
    ∧ (run_task env t0).task.status ≠ Status.active := by
  unfold run_task handleFailure
  by_cases hm : env.markOk = true <;> by_cases hl : env.launchOk = true <;>
    by_cases hw : env.statusWriteOk = true <;> by_cases hc : env.exitCode = 0 <;>
      simp [hm, hl, hw, hc, hfw, afterLog, afterMark]

/-- Environment where everything succeeds except the terminal status write;
the recovery write succeeds. -/
def env_c2w : RunEnv := ⟨true, true, [], fun _ => true, true, 0, false, true, 1, 2, 3, 0⟩

theorem run_task_no_stuck_active_witness :
    (((run_task env_c2w trec0).raised = true →
        (run_task env_c2w trec0).task.status = Status.failed
        ∧ (run_task env_c2w trec0).task.end_time = some env_c2w.tFail)
      ∧ (run_task env_c2w trec0).task.status ≠ Status.active) :=
  run_task_no_stuck_active env_c2w trec0 rfl

/-- C6: for a Worker whose process exits and whose stores writes along the
normal path succeed, the recorded terminal status is completed exactly when
the exit code is 0 and failed for every non-zero code, with end_time
recorded at that resolution. -/
theorem exit_code_resolution (env : RunEnv) (t0 : TaskRec)
    (hm : env.markOk = true) (hl : env.launchOk = true)
    (hw : env.statusWriteOk = true) :
    ((run_task env t0).task.status = Status.completed ↔ env.exitCode = 0)
    ∧ ((run_task env t0).task.status = Status.failed ↔ env.exitCode ≠ 0)
    ∧ (run_task env t0).task.end_time = some env.tEnd := by
  unfold run_task
  by_cases hc : env.exitCode = 0 <;> simp [hm, hl, hw, hc]

/-- Environment of a normal run with one captured line and exit code 0. -/
def env_c6 : RunEnv := ⟨true, true, [("out", 0)], fun _ => true, true, 0, true, true, 1, 2, 3, 0⟩

theorem exit_code_resolution_witness :
    ((run_task env_c6 trec0).task.status = Status.completed ↔ env_c6.exitCode = 0)
    ∧ ((run_task env_c6 trec0).task.status = Status.failed ↔ env_c6.exitCode ≠ 0)
    ∧ (run_task env_c6 trec0).task.end_time = some env_c6.tEnd :=
  exit_code_resolution env_c6 trec0 rfl rfl rfl

/-- Environment where the process writes one line and exits 0, no
intermediate flush triggers, and the final flush store write raises. -/
def env_c5 : RunEnv := ⟨true, true, [("hello", 0)], fun _ => true, false, 0, true, true, 1, 2, 3, 0⟩

/-- C5 counterexample: the process exits normally, the task reaches terminal
status completed, yet because the final flush store write raised (and was
swallowed) the persisted log is not the concatenation of the captured
output. -/
theorem final_log_incomplete :
    (run_task env_c5 trec0).task.status = Status.completed
    ∧ (run_task env_c5 trec0).task.log ≠ some (joinLines (env_c5.items.map fun i => i.1)) := by
  decide

/-- C5 amended: when the final flush store write succeeds, the persisted log
of a Worker that ran its process to exit equals the ordered concatenation of
every captured line, independent of which intermediate batching flushes
happened or failed; as the counterexample shows, the claim as stated fails
when the final flush write raises. -/
theorem final_log_complete (env : RunEnv) (t0 : TaskRec)
    (hm : env.markOk = true) (hl : env.launchOk = true)
    (hf : env.finalFlushOk = true) :
    (run_task env t0).task.log = some (joinLines (env.items.map fun i => i.1)) := by
  have hpl : runPersisted env =
      (logLoop env).persisted ++ [joinLines (env.items.map fun i => i.1)] := by
    unfold runPersisted
    rw [if_pos (by simp [hf]), logLoop_buffer]
  have hlast : lastLog (runPersisted env) t0.log =
      some (joinLines (env.items.map fun i => i.1)) := by
    unfold lastLog
    rw [hpl, List.getLast?_concat]
  unfold run_task handleFailure
  by_cases hw : env.statusWriteOk = true <;> by_cases hb : env.failWriteOk = true <;>
    simp [hm, hl, hw, hb, afterLog, hlast]

/-- Environment of a normal run with two captured lines where the second
line arrives late enough to trigger the 10-second intermediate flush. -/
def env_c5w : RunEnv :=
  ⟨true, true, [("hello ", 0), ("world", 20)], fun _ => true, true, 0, true, true, 1, 2, 3, 0⟩

theorem final_log_complete_witness :
    (run_task env_c5w trec0).task.log = some (joinLines (env_c5w.items.map fun i => i.1)) :=
  final_log_complete env_c5w trec0 rfl rfl rfl

/-- C10: within one Worker execution the sequence of log values written to
the store is monotone in the prefix order, because every flush writes the
whole accumulated buffer and the buffer is never cleared; on a run whose
final flush write succeeds the last written value is the full concatenation,
which is the empty string when the process produced no output. -/
theorem persisted_logs_monotone (env : RunEnv) (t0 : TaskRec) :
    List.Pairwise logStart (run_task env t0).persistedLogs
    ∧ (env.markOk = true → env.launchOk = true → env.finalFlushOk = true →
        (run_task env t0).persistedLogs.getLast? =
          some (joinLines (env.items.map fun i => i.1)))
    ∧ (env.markOk = true → env.launchOk = true → env.finalFlushOk = true →
        env.items = [] → (run_task env t0).persistedLogs.getLast? = some "") := by
  have hinv := logLoop_inv env
  have hlast : ∀ hm : env.markOk = true, ∀ hl : env.launchOk = true,
      env.finalFlushOk = true →
      (run_task env t0).persistedLogs.getLast? =
        some (joinLines (env.items.map fun i => i.1)) := by
    intro hm hl hf
    rw [run_task_persistedLogs, if_pos ⟨hm, hl⟩]
    unfold runPersisted
    rw [if_pos (by simp [hf]), logLoop_buffer, List.getLast?_concat]
  refine ⟨?_, hlast, ?_⟩
  · rw [run_task_persistedLogs]
    by_cases hml : env.markOk = true ∧ env.launchOk = true
    · rw [if_pos hml]
      unfold runPersisted
      by_cases hf : env.finalFlushOk = true
      · rw [if_pos (by simp [hf]), List.pairwise_append]
        refine ⟨hinv.1, List.pairwise_singleton _ _, ?_⟩
        intro s hs b hb
        have hb2 : b = joinLines (logLoop env).log_lines := by simpa using hb
        obtain ⟨pre, rest, hsplit, rfl⟩ := hinv.2 s hs
        rw [hb2, ← hsplit]
        exact logStart_join _ _
      · rw [if_neg (by simp [hf])]
        exact hinv.1
    · rw [if_neg hml]
      exact List.Pairwise.nil
  · intro hm hl hf hnil
    rw [hlast hm hl hf, hnil]
    rfl

/-- Environment of a run with three lines whose second triggers the
10-second flush, so that both an intermediate and the final flush persist. -/
def env_c10 : RunEnv :=
  ⟨true, true, [("a", 0), ("b", 15), ("c", 16)], fun _ => true, true, 0, true, true, 1, 2, 3, 0⟩

theorem persisted_logs_monotone_witness :
    List.Pairwise logStart (run_task env_c10 trec0).persistedLogs
    ∧ (env_c10.markOk = true → env_c10.launchOk = true → env_c10.finalFlushOk = true →
        (run_task env_c10 trec0).persistedLogs.getLast? =
          some (joinLines (env_c10.items.map fun i => i.1)))
    ∧ (env_c10.markOk = true → env_c10.launchOk = true → env_c10.finalFlushOk = true →
        env_c10.items = [] → (run_task env_c10 trec0).persistedLogs.getLast? = some "") :=
  persisted_logs_monotone env_c10 trec0

theorem taskById_map_preserving (db : List Task) (tid : Nat) (g : Task → Task)
    (hid : ∀ t, (g t).id = t.id) :
    taskById (db.map g) tid = (taskById db tid).map g := by
  unfold taskById
  rw [List.find?_map]
  have hp : ((fun t : Task => t.id == tid) ∘ g) = (fun t : Task => t.id == tid) := by
    funext t
    simp [hid t]
  rw [hp]

/-- C7: requeue succeeds exactly when the task exists with status failed; on
success the task is reset to pending with log, start_time and end_time
cleared while its identity fields are kept, and every other task is
unchanged; on rejection the table is left entirely unchanged. -/
theorem requeue_correct (db : List Task) (tid : Nat) :
    ((requeue db tid).1 = true ↔ (taskById db tid).map Task.status = some Status.failed)
    ∧ ((requeue db tid).1 = false → (requeue db tid).2 = db)
    ∧ (∀ u, taskById db tid = some u → u.status = Status.failed →
        taskById (requeue db tid).2 tid =
          some { u with status := Status.pending, log := none,
                        start_time := none, end_time := none })
    ∧ ((requeue db tid).1 = true → ∀ t ∈ db, t.id ≠ tid → t ∈ (requeue db tid).2) := by
  cases hq : taskById db tid with
  | none => refine ⟨?_, ?_, ?_, ?_⟩ <;> simp [requeue, hq]
  | some u =>
      by_cases hf : u.status = Status.failed
      · refine ⟨?_, ?_, ?_, ?_⟩
        · simp [requeue, hq, hf]
        · simp [requeue, hq, hf]
        · intro v hv hvf
          have hv2 : u = v := by injection hv
          subst hv2
          simp only [requeue, hq, hf, if_pos]
          rw [taskById_map_preserving db tid _ (fun t => by split <;> rfl)]
          rw [hq]
          have hid : u.id = tid := (taskById_some hq).2
          simp [clearTask, hid]
        · intro _ t ht hne
          simp only [requeue, hq, hf, if_pos]
          exact List.mem_map.mpr ⟨t, ht, by simp [hne]⟩
      · refine ⟨?_, ?_, ?_, ?_⟩
        · simp [requeue, hq, hf]
        · simp [requeue, hq, hf]
        · intro v hv hvf
          have hv2 : u = v := by injection hv
          subst hv2
          exact absurd hvf hf
        · simp [requeue, hq, hf]

/-- Concrete table with a failed task and a completed task. -/
def rqDb : List Task :=
  [⟨1, "x", "u1", Status.failed, 1, some 2, some 3, some "boom"⟩,
   ⟨2, "y", "u2", Status.completed, 2, some 2, some 3, some "fine"⟩]

theorem requeue_correct_witness :
    (((requeue rqDb 1).1 = true ↔ (taskById rqDb 1).map Task.status = some Status.failed)
    ∧ ((requeue rqDb 1).1 = false → (requeue rqDb 1).2 = rqDb)
    ∧ (∀ u, taskById rqDb 1 = some u → u.status = Status.failed →
        taskById (requeue rqDb 1).2 1 =
          some { u with status := Status.pending, log := none,
                        start_time := none, end_time := none })
    ∧ ((requeue rqDb 1).1 = true → ∀ t ∈ rqDb, t.id ≠ 1 → t ∈ (requeue rqDb 1).2)) :=
  requeue_correct rqDb 1

/-- Persisted settings document. -/
structure Settings where
  concurrency : Int
  deriving DecidableEq

/-- Set-concurrency endpoint (app.py lines 343-352): the input is the value
of int() over the posted field (none when int() raised); the parsed value is
stored and persisted immediately, with no validation of any kind; a parse
error is reported and leaves the settings unchanged. -/
def set_concurrency (s : Settings) (input : Option Int) : Bool × Settings :=
  match input with
  | none => (false, s)
  | some v => (true, ⟨v⟩)

/-- C8: the code violates the claim: the endpoint accepts and persists the
non-positive value 0 instead of failing with the setting unchanged; with the
persisted 0 the next Dispatcher tick launches nothing even though four tasks
are pending. -/
theorem set_concurrency_accepts_zero :
    set_concurrency ⟨3⟩ (some 0) = (true, ⟨0⟩)
    ∧ process_queue (set_concurrency ⟨3⟩ (some 0)).2.concurrency scenarioDb = [] := by
  decide

/-- Outcome of one attempt at a store statement: success, a transient
database-is-locked contention error, or any other error. -/
inductive DbOutcome
  | ok
  | locked
  | otherErr
  deriving DecidableEq

/-- Retry bound of execute_db_query (app.py line 104). -/
def max_retries : Nat := 3

/-- Retry loop of execute_db_query (app.py lines 102-128), iterating the
attempt indices of range(max_retries) with the outcome of each attempt
supplied by an oracle: success returns the attempt index with the sleeps
performed so far; a locked error before the last attempt sleeps 100 ms times
the 1-based attempt number and retries; a locked error on the last attempt
and any other error re-raise, carrying the sleeps performed. -/
def edqGo (outcome : Nat → DbOutcome) :
    List Nat → List Nat → Except (List Nat) (Nat × List Nat)
  | [], sleeps => Except.error sleeps
  | attempt :: rest, sleeps =>
    match outcome attempt with
    | DbOutcome.ok => Except.ok (attempt, sleeps)
    | DbOutcome.locked =>
      if attempt < max_retries - 1 then
        edqGo outcome rest (sleeps ++ [100 * (attempt + 1)])
      else Except.error sleeps
    | DbOutcome.otherErr => Except.error sleeps

/-- Query wrapper with retry (execute_db_query, app.py lines 102-128). -/
def execute_db_query (outcome : Nat → DbOutcome) : Except (List Nat) (Nat × List Nat) :=
  edqGo outcome (List.range max_retries) []

/-- C9: store mutations are retried up to the fixed bound of 3 attempts with
increasing backoff of 100 ms times the attempt number: when every attempt
hits contention the error propagates after sleeping 100 then 200 ms, and a
success comes within the bound, preceded only by locked attempts with the
matching backoff sleeps. -/
theorem execute_db_query_retries (outcome : Nat → DbOutcome) :
    ((∀ i, i < max_retries → outcome i = DbOutcome.locked) →
        execute_db_query outcome = Except.error [100, 200])
    ∧ (∀ k sleeps, execute_db_query outcome = Except.ok (k, sleeps) →
        k < max_retries ∧ outcome k = DbOutcome.ok
        ∧ (∀ i, i < k → outcome i = DbOutcome.locked)
        ∧ sleeps = (List.range k).map fun i => 100 * (i + 1)) := by
  have hrange : List.range max_retries = [0, 1, 2] := rfl
  constructor
  · intro h
    have h0 := h 0 (by decide)
    have h1 := h 1 (by decide)
    have h2 := h 2 (by decide)
    unfold execute_db_query
    rw [hrange]
    simp [edqGo, h0, h1, h2, max_retries]
  · intro k sleeps hk
    unfold execute_db_query at hk
    rw [hrange] at hk
    cases h0 : outcome 0 with
    | ok =>
        simp [edqGo, h0] at hk
        obtain ⟨rfl, rfl⟩ := hk
        exact ⟨by decide, h0, by omega, by simp⟩
    | locked =>
        cases h1 : outcome 1 with
        | ok =>
            simp [edqGo, h0, h1, max_retries] at hk
            obtain ⟨rfl, rfl⟩ := hk
            refine ⟨by decide, h1, ?_, rfl⟩
            intro i hi
            interval_cases i
            exact h0
        | locked =>
            cases h2 : outcome 2 with
            | ok =>
                simp [edqGo, h0, h1, h2, max_retries] at hk
                obtain ⟨rfl, rfl⟩ := hk
                refine ⟨by decide, h2, ?_, rfl⟩
                intro i hi
                interval_cases i
                · exact h0
                · exact h1
            | locked => simp [edqGo, h0, h1, h2, max_retries] at hk
            | otherErr => simp [edqGo, h0, h1, h2, max_retries] at hk
        | otherErr => simp [edqGo, h0, h1, max_retries] at hk
    | otherErr => simp [edqGo, h0] at hk

/-- Oracle where the first attempt hits contention and the second succeeds. -/
def outcome_w : Nat → DbOutcome := fun i => if i = 0 then DbOutcome.locked else DbOutcome.ok

theorem execute_db_query_retries_witness :
    ((∀ i, i < max_retries → outcome_w i = DbOutcome.locked) →
        execute_db_query outcome_w = Except.error [100, 200])
    ∧ (∀ k sleeps, execute_db_query outcome_w = Except.ok (k, sleeps) →
        k < max_retries ∧ outcome_w k = DbOutcome.ok
        ∧ (∀ i, i < k → outcome_w i = DbOutcome.locked)
        ∧ sleeps = (List.range k).map fun i => 100 * (i + 1)) :=
  execute_db_query_retries outcome_w

end Linksniff
